import Mathlib

/-!
Verification of the biaffine dependency parser repository
(`speedcell4/biaffineparser`, file `parser.py`) against its
natural-language specification.

The in-scope core is the test-time pipeline of `parser.py`:
batchwise decoding via `BiaffineParser.parse`, per-sentence scoring via
`Evaluator.evaluate` with a punctuation/root ignore mask, the running
aggregate `(UAS, LAS, count)`, the final percentage report, and the
optional decode-mode textual output.  `Evaluator` and
`BiaffineParser.parse` are defined in repository files (`utils.py`,
the model modules) outside the provided sources, so they are modelled
from the specification; everything else is translated from
`parser.py`.

Numeric conventions: Python floats are modelled by `ℚ` (the claims in
scope are structural, not about rounding), Python float division by
`pyDiv`, which raises `ZeroDivisionError` on a zero denominator exactly
as CPython does.
-/

namespace Biaffine

/-- First-position argmax over a list of candidate indices: returns the
candidate maximizing `f`, keeping the earliest candidate on ties (so with
an ascending candidate list, ties are broken by lowest index, as the spec
requires).  `none` only on an empty candidate list. -/
def argmaxBy (f : Nat → Int) : List Nat → Option Nat
  | [] => none
  | c :: cs => some (cs.foldl (fun best j => if f best < f j then j else best) c)

theorem argmaxBy_foldl_mem (f : Nat → Int) (cs : List Nat) (b : Nat) :
    cs.foldl (fun best j => if f best < f j then j else best) b ∈ b :: cs := by
  induction cs generalizing b with
  | nil => simp [List.foldl]
  | cons j rest ih =>
    have h := ih (if f b < f j then j else b)
    rcases List.mem_cons.mp h with h' | h'
    · by_cases hb : f b < f j
      · simp [hb] at h'
        simp [List.foldl, hb, h']
      · simp [hb] at h'
        simp [List.foldl, hb, h']
    · simp [List.foldl]
      right
      right
      exact h'

theorem argmaxBy_mem {f : Nat → Int} {l : List Nat} {m : Nat}
    (h : argmaxBy f l = some m) : m ∈ l := by
  cases l with
  | nil => simp [argmaxBy] at h
  | cons c cs =>
    simp only [argmaxBy, Option.some.injEq] at h
    subst h
    exact argmaxBy_foldl_mem f cs c

theorem argmaxBy_isSome (f : Nat → Int) {l : List Nat} (h : l ≠ []) :
    ∃ m, argmaxBy f l = some m := by
  cases l with
  | nil => exact absurd rfl h
  | cons c cs => exact ⟨_, rfl⟩

theorem argmaxBy_getD_mem (f : Nat → Int) {l : List Nat} (h : l ≠ []) :
    (argmaxBy f l).getD 0 ∈ l := by
  obtain ⟨m, hm⟩ := argmaxBy_isSome f h
  rw [hm]
  exact argmaxBy_mem hm

/-! ### Evaluator (modelled from the spec)

`utils.Evaluator` is repository code that is not among the provided
sources (only its call sites in `parser.py` are), so it is modelled from
spec §4.2. -/

/-- Modelled from the spec: `Evaluator.create_ignore_mask` of `utils.py`
(absent from the provided sources).  Given POS ids for a sentence, mark
the root position (index 0) and every punctuation-tagged position as
ignored; the punctuation POS set is a fixed configuration table, passed
here as the predicate `punct`. -/
def create_ignore_mask (punct : Nat → Bool) (pos : List Nat) : List Bool :=
  match pos with
  | [] => []
  | _ :: rest => true :: rest.map punct

/-- Core of `evaluate` over the per-token tuples
`(pred_arc, pred_label, gold_arc, gold_label, masked)`. -/
def evalTokens : List (Nat × Nat × Nat × Nat × Bool) → Nat × Nat × Nat
  | [] => (0, 0, 0)
  | (pa, pl, ta, tl, m) :: rest =>
    let r := evalTokens rest
    if m then r
    else (r.1 + (if pa = ta then 1 else 0),
          r.2.1 + (if pa = ta ∧ pl = tl then 1 else 0),
          r.2.2 + 1)

/-- Modelled from the spec: `Evaluator.evaluate` of `utils.py` (absent
from the provided sources).  For one sentence, returns
`(uas_count, las_count, total_count)`: masked positions are skipped
entirely; each remaining position adds one to `total_count`, one to
`uas_count` when the predicted head equals the gold head, and one to
`las_count` when additionally the predicted label equals the gold
label. -/
def evaluate (p_arcs p_labels t_arcs t_labels : List Nat) (mask : List Bool) :
    Nat × Nat × Nat :=
  evalTokens (p_arcs.zip (p_labels.zip (t_arcs.zip (t_labels.zip mask))))

theorem evalTokens_bounds (l : List (Nat × Nat × Nat × Nat × Bool)) :
    (evalTokens l).2.1 ≤ (evalTokens l).1 ∧ (evalTokens l).1 ≤ (evalTokens l).2.2 := by
  induction l with
  | nil => simp [evalTokens]
  | cons t rest ih =>
    obtain ⟨pa, pl, ta, tl, m⟩ := t
    by_cases hm : m
    · simpa [evalTokens, hm] using ih
    · simp only [evalTokens, hm, if_false]
      constructor
      · have : (if pa = ta ∧ pl = tl then 1 else 0) ≤ (if pa = ta then 1 else 0) := by
          by_cases h1 : pa = ta <;> by_cases h2 : pl = tl <;> simp [h1, h2]
        exact Nat.add_le_add ih.1 this
      · have : (if pa = ta then 1 else 0) ≤ 1 := by
          by_cases h1 : pa = ta <;> simp [h1]
        exact Nat.add_le_add ih.2 this

/-- Claim C7: accuracy-count ordering invariant.  For every input to
`evaluate` (any predicted and gold arcs and labels and any mask), the
returned counts `(uas, las, total)` satisfy
`0 ≤ las_count ≤ uas_count ≤ total_count`: a correct label is only
counted when the head is also correct. -/
theorem evaluate_count_ordering (p_arcs p_labels t_arcs t_labels : List Nat)
    (mask : List Bool) :
    0 ≤ (evaluate p_arcs p_labels t_arcs t_labels mask).2.1 ∧
    (evaluate p_arcs p_labels t_arcs t_labels mask).2.1 ≤
      (evaluate p_arcs p_labels t_arcs t_labels mask).1 ∧
    (evaluate p_arcs p_labels t_arcs t_labels mask).1 ≤
      (evaluate p_arcs p_labels t_arcs t_labels mask).2.2 := by
  refine ⟨Nat.zero_le _, ?_, ?_⟩
  · exact (evalTokens_bounds _).1
  · exact (evalTokens_bounds _).2

/-! ### Decoder (modelled from the spec)

`BiaffineParser.parse` is repository code defined in the model modules
(`chainer_model.py` / `pytorch_model.py`), which are not among the
provided sources (only the call site in `parser.py` is), so the decoder
is modelled from spec §4.1.  Positions are `0, …, n-1`, position `0`
being the synthetic root; `score i j` is the arc score for token `i`
having head `j`.  In the produced head list the root position carries
the sentinel value `0` (the root is excluded from being assigned a
head). -/

/-- Modelled from the spec: greedy per-token head selection (§4.1
step 1): `head(i) = argmax over j ≠ i of arc_score[i][j]`, ties broken
by lowest index. -/
def greedyHead (score : Nat → Nat → Int) (n i : Nat) : Nat :=
  (argmaxBy (score i) ((List.range n).filter (fun j => j != i))).getD 0

/-- Modelled from the spec: the root-attachment choice of §4.1 step 2,
"selecting the token whose root-arc-score is highest" (ties broken by
lowest index). -/
def istar (score : Nat → Nat → Int) (n : Nat) : Nat :=
  (argmaxBy (fun i => score i 0) ((List.range n).filter (fun j => j != 0))).getD 0

/-- Modelled from the spec: the root-attachment part of the repair pass
(§4.1 step 2): force exactly one root attachment.  The token `istar`
with the highest root-arc score is attached to the root; any other token
whose greedy head was the root is re-scored against its best non-root
head. -/
def fixedHead (score : Nat → Nat → Int) (n i : Nat) : Nat :=
  if i = istar score n then 0
  else
    let g := greedyHead score n i
    if g = 0 then
      (argmaxBy (score i) ((List.range n).filter (fun j => j != 0 && j != i))).getD 0
    else g

/-- The head assignment after greedy selection and the root-attachment
fix, as a total function: position `0` (the root) and positions outside
the sentence carry the sentinel `0`. -/
def initialHeads (score : Nat → Nat → Int) (n : Nat) : Nat → Nat :=
  fun i => if i = 0 then 0 else if i < n then fixedHead score n i else 0

/-- Fuel-bounded check that following head links from `i` reaches the
root (position 0). -/
def reachesRoot (h : Nat → Nat) : Nat → Nat → Bool
  | 0, i => i == 0
  | fuel + 1, i => i == 0 || reachesRoot h fuel (h i)

/-- Tokens (in ascending order) that do not reach the root by following
head links — the members of cycles and their descendants. -/
def badList (n : Nat) (h : Nat → Nat) : List Nat :=
  (List.range n).filter (fun x => x != 0 && !(reachesRoot h n x))

/-- Candidate replacement heads for token `i` during repair: the
non-root tokens that already reach the root (attaching to one of them
cannot create a cycle or a second root attachment). -/
def repairCands (n : Nat) (h : Nat → Nat) (i : Nat) : List Nat :=
  (List.range n).filter (fun j => j != 0 && j != i && reachesRoot h n j)

/-- Modelled from the spec: one step of the deterministic correction
pass of §4.1 step 2.  The spec leaves the concrete repair heuristic
open and instructs implementers to choose and document a deterministic
policy; the policy chosen here: take the lowest-index token that does
not reach the root and re-attach it to its highest-scoring candidate
head among the non-root tokens that already reach the root (ties broken
by lowest index).  Returns `none` when every non-root token already
reaches the root. -/
def repairStep (score : Nat → Nat → Int) (n : Nat) (h : Nat → Nat) :
    Option (Nat → Nat) :=
  match (badList n h).head? with
  | none => none
  | some i =>
    match argmaxBy (score i) (repairCands n h i) with
    | none => none
    | some j => some (fun x => if x = i then j else h x)

/-- The repair pass iterated with fuel; `n` steps suffice since every
step strictly shrinks `badList`. -/
def repairLoop (score : Nat → Nat → Int) (n : Nat) : Nat → (Nat → Nat) → (Nat → Nat)
  | 0, h => h
  | fuel + 1, h =>
    match repairStep score n h with
    | none => h
    | some h' => repairLoop score n fuel h'

/-- Modelled from the spec: the decoded head assignment for one
sentence — greedy selection (§4.1 step 1) followed by the deterministic
validity repair (§4.1 step 2). -/
def decodeHeads (score : Nat → Nat → Int) (n : Nat) : Nat → Nat :=
  repairLoop score n n (initialHeads score n)

/-- Modelled from the spec (§4.1 step 3): for each finalized arc
`(i, head(i))`, the label is the argmax of the label-score distribution
restricted to that arc (ties broken by lowest index). -/
def decodeLabel (labelScore : Nat → Nat → Nat → Int) (nLabels : Nat)
    (h : Nat → Nat) (i : Nat) : Nat :=
  (argmaxBy (labelScore i (h i)) (List.range nLabels)).getD 0

/-- Per-sentence scored input to the decoder: the sentence length `n`
(root included), the arc-score matrix and label-score tensor produced by
the external model, and the label-vocabulary size. -/
structure ScoredSentence where
  n : Nat
  arcScore : Nat → Nat → Int
  labelScore : Nat → Nat → Nat → Int
  nLabels : Nat

instance : Inhabited ScoredSentence :=
  ⟨⟨0, fun _ _ => 0, fun _ _ _ => 0, 0⟩⟩

/-- Modelled from the spec: decoding of one sentence — the head index
sequence and the label id sequence, one entry per token position. -/
def parseOne (s : ScoredSentence) : List Nat × List Nat :=
  let h := decodeHeads s.arcScore s.n
  ((List.range s.n).map h,
   (List.range s.n).map (decodeLabel s.labelScore s.nLabels h))

/-- Modelled from the spec: `BiaffineParser.parse` over a batch —
sentences are processed independently; returns the pair
`(arc_sequences, label_sequences)`. -/
def parse (batch : List ScoredSentence) : List (List Nat) × List (List Nat) :=
  (batch.map (fun s => (parseOne s).1), batch.map (fun s => (parseOne s).2))

/-! ### Validity of the decoded head assignment -/

/-- Invariant maintained by the repair loop: the root carries the
sentinel `0`, every non-root position has a head inside the sentence
distinct from itself, and the unique position attached to the root is
`istar`. -/
structure HInv (score : Nat → Nat → Int) (n : Nat) (h : Nat → Nat) : Prop where
  zero : h 0 = 0
  lt : ∀ i, 1 ≤ i → i < n → h i < n
  ne : ∀ i, 1 ≤ i → i < n → h i ≠ i
  root : ∀ i, 1 ≤ i → i < n → (h i = 0 ↔ i = istar score n)

theorem mem_range_filter_ne_zero {n x : Nat}
    (hx : x ∈ (List.range n).filter (fun j => j != 0)) : 1 ≤ x ∧ x < n := by
  have := List.mem_filter.mp hx
  have h1 := List.mem_range.mp this.1
  have h2 : x ≠ 0 := by simpa using this.2
  omega

theorem istar_bounds (score : Nat → Nat → Int) {n : Nat} (hn : 2 ≤ n) :
    1 ≤ istar score n ∧ istar score n < n := by
  have h1 : (1 : Nat) ∈ (List.range n).filter (fun j => j != 0) := by
    refine List.mem_filter.mpr ⟨List.mem_range.mpr (by omega), by simp⟩
  have hne : (List.range n).filter (fun j => j != 0) ≠ [] :=
    List.ne_nil_of_mem h1
  exact mem_range_filter_ne_zero (argmaxBy_getD_mem _ hne)

theorem HInv_initial (score : Nat → Nat → Int) {n : Nat} (hn : 2 ≤ n) :
    HInv score n (initialHeads score n) := by
  have hist := istar_bounds score hn
  refine ⟨by simp [initialHeads], ?_, ?_, ?_⟩
  · intro i h1 h2
    simp only [initialHeads, if_neg (by omega : ¬ i = 0), if_pos h2]
    unfold fixedHead
    by_cases hi : i = istar score n
    · simp [hi]; omega
    · simp only [if_neg hi]
      by_cases hg : greedyHead score n i = 0
      · simp only [hg, if_pos rfl]
        have hmem : istar score n ∈ (List.range n).filter (fun j => j != 0 && j != i) := by
          refine List.mem_filter.mpr ⟨List.mem_range.mpr hist.2, ?_⟩
          have : istar score n ≠ 0 := by omega
          have : istar score n ≠ i := fun hc => hi hc.symm
          simp_all
        have := argmaxBy_getD_mem (score i) (List.ne_nil_of_mem hmem)
        have := (List.mem_filter.mp this).1
        exact List.mem_range.mp this
      · simp only [if_neg hg]
        have hmem : (0 : Nat) ∈ (List.range n).filter (fun j => j != i) := by
          refine List.mem_filter.mpr ⟨List.mem_range.mpr (by omega), by simp; omega⟩
        have := argmaxBy_getD_mem (score i) (List.ne_nil_of_mem hmem)
        unfold greedyHead
        have := (List.mem_filter.mp this).1
        exact List.mem_range.mp this
  · intro i h1 h2
    simp only [initialHeads, if_neg (by omega : ¬ i = 0), if_pos h2]
    unfold fixedHead
    by_cases hi : i = istar score n
    · simp [hi]; omega
    · simp only [if_neg hi]
      by_cases hg : greedyHead score n i = 0
      · simp only [hg, if_pos rfl]
        have hmem : istar score n ∈ (List.range n).filter (fun j => j != 0 && j != i) := by
          refine List.mem_filter.mpr ⟨List.mem_range.mpr hist.2, ?_⟩
          have : istar score n ≠ 0 := by omega
          have : istar score n ≠ i := fun hc => hi hc.symm
          simp_all
        have := argmaxBy_getD_mem (score i) (List.ne_nil_of_mem hmem)
        have := (List.mem_filter.mp this).2
        simp at this
        exact this.2
      · simp only [if_neg hg]
        have hmem : (0 : Nat) ∈ (List.range n).filter (fun j => j != i) := by
          refine List.mem_filter.mpr ⟨List.mem_range.mpr (by omega), by simp; omega⟩
        have := argmaxBy_getD_mem (score i) (List.ne_nil_of_mem hmem)
        unfold greedyHead
        have := (List.mem_filter.mp this).2
        simpa using this
  · intro i h1 h2
    simp only [initialHeads, if_neg (by omega : ¬ i = 0), if_pos h2]
    unfold fixedHead
    by_cases hi : i = istar score n
    · simp [hi]
    · simp only [if_neg hi]
      by_cases hg : greedyHead score n i = 0
      · simp only [hg, if_pos rfl]
        have hmem : istar score n ∈ (List.range n).filter (fun j => j != 0 && j != i) := by
          refine List.mem_filter.mpr ⟨List.mem_range.mpr hist.2, ?_⟩
          have : istar score n ≠ 0 := by omega
          have : istar score n ≠ i := fun hc => hi hc.symm
          simp_all
        have := argmaxBy_getD_mem (score i) (List.ne_nil_of_mem hmem)
        have h0 := (List.mem_filter.mp this).2
        simp at h0
        simp [h0.1, hi]
      · simp only [if_neg hg]
        simp [hg, hi]

/-- Unbounded reachability of the root by following head links. -/
def Reaches (h : Nat → Nat) (i : Nat) : Prop := ∃ m, h^[m] i = 0

theorem reachesRoot_iff_le (h : Nat → Nat) (fuel : Nat) :
    ∀ i, reachesRoot h fuel i = true ↔ ∃ m, m ≤ fuel ∧ h^[m] i = 0 := by
  induction fuel with
  | zero =>
    intro i
    simp only [reachesRoot, beq_iff_eq]
    constructor
    · intro hi; exact ⟨0, le_refl 0, by simpa using hi⟩
    · rintro ⟨m, hm, hi⟩
      have : m = 0 := Nat.le_zero.mp hm
      subst this
      simpa using hi
  | succ fuel ih =>
    intro i
    simp only [reachesRoot, Bool.or_eq_true, beq_iff_eq, ih]
    constructor
    · rintro (hi | ⟨m, hm, hi⟩)
      · exact ⟨0, Nat.zero_le _, by simpa using hi⟩
      · refine ⟨m + 1, by omega, ?_⟩
        rw [Function.iterate_succ_apply]
        exact hi
    · rintro ⟨m, hm, hi⟩
      cases m with
      | zero => left; simpa using hi
      | succ m' =>
        right
        refine ⟨m', by omega, ?_⟩
        rw [Function.iterate_succ_apply] at hi
        exact hi

theorem reaches_of_reachesRoot {h : Nat → Nat} {fuel i : Nat}
    (hr : reachesRoot h fuel i = true) : Reaches h i := by
  obtain ⟨m, _, hm⟩ := (reachesRoot_iff_le h fuel i).mp hr
  exact ⟨m, hm⟩

theorem reachesRoot_zero (h : Nat → Nat) (fuel : Nat) :
    reachesRoot h fuel 0 = true := by
  cases fuel <;> simp [reachesRoot]

/-- Helper bound: iterates of a self-map of `[0, n)` stay in `[0, n)`. -/
theorem iterate_lt_of_lt {h : Nat → Nat} {n : Nat}
    (hb : ∀ x, x < n → h x < n) {i : Nat} (hi : i < n) :
    ∀ m, h^[m] i < n := by
  intro m
  induction m with
  | zero => simpa using hi
  | succ m ih =>
    rw [Function.iterate_succ_apply']
    exact hb _ ih

/-- Pigeonhole: a reachable token reaches the root within `n` steps, so
the fuel-bounded check is complete on `[0, n)` for self-maps of
`[0, n)`. -/
theorem reachesRoot_of_reaches {h : Nat → Nat} {n : Nat}
    (hb : ∀ x, x < n → h x < n) {i : Nat} (hi : i < n)
    (hr : Reaches h i) : reachesRoot h n i = true := by
  classical
  have hex : ∃ m, h^[m] i = 0 := hr
  let m := Nat.find hex
  have hm : h^[m] i = 0 := Nat.find_spec hex
  have hmin : ∀ k, k < m → h^[k] i ≠ 0 := fun k hk => Nat.find_min hex hk
  -- the first m+1 iterates are pairwise distinct
  have hinj : ∀ a b, a < b → b ≤ m → h^[a] i ≠ h^[b] i := by
    intro a b hab hbm heq
    have : h^[(m - b) + a] i = 0 := by
      rw [Function.iterate_add_apply, heq, ← Function.iterate_add_apply]
      have : m - b + b = m := by omega
      rw [this, hm]
    exact hmin _ (by omega) this
  have hInjOn : Set.InjOn (fun t => h^[t] i) (Finset.range (m + 1) : Finset Nat) := by
    intro a ha b hb heq
    simp only [Finset.coe_range, Set.mem_Iio] at ha hb
    by_contra hne
    rcases Nat.lt_or_ge a b with hlt | hge
    · exact hinj a b hlt (by omega) heq
    · have hlt : b < a := by omega
      exact hinj b a hlt (by omega) heq.symm
  have hsub : (Finset.range (m + 1)).image (fun t => h^[t] i) ⊆ Finset.range n := by
    intro x hx
    obtain ⟨t, _, ht⟩ := Finset.mem_image.mp hx
    rw [← ht]
    exact Finset.mem_range.mpr (iterate_lt_of_lt hb hi t)
  have hcard : m + 1 ≤ n := by
    have h1 : ((Finset.range (m + 1)).image (fun t => h^[t] i)).card
        = (Finset.range (m + 1)).card := Finset.card_image_of_injOn hInjOn
    have h2 := Finset.card_le_card hsub
    rw [h1, Finset.card_range] at h2
    rw [Finset.card_range] at h2
    exact h2
  exact (reachesRoot_iff_le h n i).mpr ⟨m, by omega, hm⟩

/-- Iterates fix the root once the root is a fixed point. -/
theorem iterate_fix_zero {h : Nat → Nat} (h0 : h 0 = 0) :
    ∀ t, h^[t] 0 = 0 := by
  intro t
  induction t with
  | zero => simp
  | succ t ih => rw [Function.iterate_succ_apply', ih, h0]

/-- When the root is a fixed point, a token that reaches the root lies
on no cycle. -/
theorem no_cycle_of_reaches {h : Nat → Nat} (h0 : h 0 = 0) {i : Nat}
    (hi0 : i ≠ 0) (hr : Reaches h i) :
    ∀ k, 0 < k → h^[k] i ≠ i := by
  classical
  have hex : ∃ m, h^[m] i = 0 := hr
  intro k hk hcyc
  have hm : h^[Nat.find hex] i = 0 := Nat.find_spec hex
  set m := Nat.find hex with hmdef
  have hmin : ∀ j, j < m → h^[j] i ≠ 0 := fun j hj => Nat.find_min hex hj
  have hmpos : 0 < m := by
    rcases Nat.eq_zero_or_pos m with hz | hp
    · rw [hz] at hm; simp at hm; exact absurd hm hi0
    · exact hp
  rcases le_or_lt k m with hkm | hkm
  · have : h^[m - k] i = 0 := by
      have : h^[(m - k) + k] i = 0 := by
        have hmk : m - k + k = m := by omega
        rw [hmk]; exact hm
      rw [Function.iterate_add_apply, hcyc] at this
      exact this
    exact hmin _ (by omega) this
  · have : h^[k] i = 0 := by
      have : h^[(k - m) + m] i = 0 := by
        rw [Function.iterate_add_apply, hm, iterate_fix_zero h0]
      have hkm' : k - m + m = k := by omega
      rw [hkm'] at this
      exact this
    rw [hcyc] at this
    exact absurd this hi0

/-- Re-attaching an unreachable token cannot destroy reachability: the
head chain of a reachable token never passes through the unreachable
one. -/
theorem reaches_upd_of_reaches {h : Nat → Nat} {i j x : Nat}
    (hni : ¬ Reaches h i) (hx : Reaches h x) :
    Reaches (fun y => if y = i then j else h y) x := by
  obtain ⟨m, hm⟩ := hx
  have havoid : ∀ t, t ≤ m → h^[t] x ≠ i := by
    intro t ht heq
    apply hni
    refine ⟨m - t, ?_⟩
    rw [← heq, ← Function.iterate_add_apply]
    have : m - t + t = m := by omega
    rw [this, hm]
  have hsame : ∀ t, t ≤ m → (fun y => if y = i then j else h y)^[t] x = h^[t] x := by
    intro t ht
    induction t with
    | zero => simp
    | succ t iht =>
      rw [Function.iterate_succ_apply', Function.iterate_succ_apply',
        iht (by omega)]
      have := havoid t (by omega)
      simp only [if_neg this]
  exact ⟨m, by rw [hsame m (le_refl m)]; exact hm⟩

/-- Re-attaching an unreachable token to a reachable head makes it
reachable. -/
theorem reaches_upd_self {h : Nat → Nat} {i j : Nat}
    (hni : ¬ Reaches h i) (hj : Reaches h j) :
    Reaches (fun y => if y = i then j else h y) i := by
  obtain ⟨m, hm⟩ := reaches_upd_of_reaches hni hj
  refine ⟨m + 1, ?_⟩
  rw [Function.iterate_succ_apply]
  simpa using hm

theorem mem_badList {n : Nat} {h : Nat → Nat} {x : Nat} :
    x ∈ badList n h ↔ x < n ∧ x ≠ 0 ∧ reachesRoot h n x = false := by
  simp only [badList, List.mem_filter, List.mem_range, Bool.and_eq_true,
    bne_iff_ne, ne_eq, Bool.not_eq_eq_eq_not, Bool.not_true]
  try tauto

theorem mem_repairCands {n : Nat} {h : Nat → Nat} {i x : Nat} :
    x ∈ repairCands n h i ↔ x < n ∧ x ≠ 0 ∧ x ≠ i ∧ reachesRoot h n x = true := by
  simp only [repairCands, List.mem_filter, List.mem_range, Bool.and_eq_true,
    bne_iff_ne, ne_eq]
  tauto

theorem HInv.map_lt {score : Nat → Nat → Int} {n : Nat} {h : Nat → Nat}
    (inv : HInv score n h) (hn : 1 ≤ n) : ∀ x, x < n → h x < n := by
  intro x hx
  rcases Nat.eq_zero_or_pos x with hz | hp
  · rw [hz, inv.zero]; omega
  · exact inv.lt x hp hx

theorem istar_reachesRoot {score : Nat → Nat → Int} {n : Nat} {h : Nat → Nat}
    (inv : HInv score n h) (hn : 2 ≤ n) :
    reachesRoot h n (istar score n) = true := by
  have hist := istar_bounds score hn
  have h0 : h (istar score n) = 0 := (inv.root _ hist.1 hist.2).mpr rfl
  refine (reachesRoot_iff_le h n _).mpr ⟨1, by omega, ?_⟩
  simpa using h0

/-- When every repair precondition holds and some token is unreachable,
the repair step fires. -/
theorem repairStep_none_badList {score : Nat → Nat → Int} {n : Nat} {h : Nat → Nat}
    (hn : 2 ≤ n) (inv : HInv score n h)
    (hstep : repairStep score n h = none) : badList n h = [] := by
  cases hbad : (badList n h).head? with
  | none => exact List.head?_eq_none_iff.mp hbad
  | some i =>
    exfalso
    have hi : i ∈ badList n h := by
      obtain ⟨t, ht⟩ := List.head?_eq_some_iff.mp hbad
      rw [ht]; exact List.mem_cons_self _ _
    obtain ⟨hiltn, hine, hirr⟩ := mem_badList.mp hi
    have hmem : istar score n ∈ repairCands n h i := by
      have hist := istar_bounds score hn
      refine mem_repairCands.mpr ⟨hist.2, by omega, ?_, istar_reachesRoot inv hn⟩
      intro hc
      rw [← hc] at hirr
      rw [istar_reachesRoot inv hn] at hirr
      exact Bool.true_eq_false.mp hirr
    obtain ⟨j, hj⟩ := argmaxBy_isSome (score i) (List.ne_nil_of_mem hmem)
    simp only [repairStep, hbad, hj] at hstep
    exact Option.some_ne_none _ hstep

theorem length_filter_mono {p q : Nat → Bool} (l : List Nat)
    (hpq : ∀ x ∈ l, q x = true → p x = true) :
    (l.filter q).length ≤ (l.filter p).length := by
  induction l with
  | nil => simp
  | cons a t ih =>
    have iht := ih (fun x hx => hpq x (List.mem_cons_of_mem a hx))
    by_cases hq : q a = true
    · have hp := hpq a (List.mem_cons_self a t) hq
      simp [List.filter, hq, hp]
      omega
    · have hq' : q a = false := by simpa using hq
      by_cases hp : p a = true
      · simp [List.filter, hq', hp]
        omega
      · have hp' : p a = false := by simpa using hp
        simp [List.filter, hq', hp']
        omega

theorem length_filter_lt {p q : Nat → Bool} (l : List Nat)
    (hpq : ∀ x ∈ l, q x = true → p x = true) (x0 : Nat) (hx0 : x0 ∈ l)
    (hp0 : p x0 = true) (hq0 : q x0 = false) :
    (l.filter q).length < (l.filter p).length := by
  induction l with
  | nil => simp at hx0
  | cons a t ih =>
    have hmono := length_filter_mono t (fun x hx => hpq x (List.mem_cons_of_mem a hx))
    rcases List.mem_cons.mp hx0 with hax | hmem
    · subst hax
      simp [List.filter, hq0, hp0]
      omega
    · have iht := ih (fun x hx => hpq x (List.mem_cons_of_mem a hx)) hmem
      by_cases hq : q a = true
      · have hp := hpq a (List.mem_cons_self a t) hq
        simp [List.filter, hq, hp]
        omega
      · have hq' : q a = false := by simpa using hq
        by_cases hp : p a = true
        · simp [List.filter, hq', hp]
          omega
        · have hp' : p a = false := by simpa using hp
          simp [List.filter, hq', hp']
          omega

/-- One fired repair step preserves the head invariant and strictly
shrinks the set of tokens that do not reach the root. -/
theorem repairStep_some {score : Nat → Nat → Int} {n : Nat} {h h' : Nat → Nat}
    (hn : 2 ≤ n) (inv : HInv score n h)
    (hstep : repairStep score n h = some h') :
    HInv score n h' ∧ (badList n h').length < (badList n h).length := by
  cases hbad : (badList n h).head? with
  | none => simp [repairStep, hbad] at hstep
  | some i =>
    have hi : i ∈ badList n h := by
      obtain ⟨t, ht⟩ := List.head?_eq_some_iff.mp hbad
      rw [ht]; exact List.mem_cons_self _ _
    obtain ⟨hiltn, hine, hirr⟩ := mem_badList.mp hi
    cases hj : argmaxBy (score i) (repairCands n h i) with
    | none => simp [repairStep, hbad, hj] at hstep
    | some j =>
      have hupd : h' = fun x => if x = i then j else h x := by
        simp only [repairStep, hbad, hj, Option.some.injEq] at hstep
        exact hstep.symm
      obtain ⟨hjltn, hjne0, hjnei, hjreach⟩ := mem_repairCands.mp (argmaxBy_mem hj)
      have hnr_i : ¬ Reaches h i := by
        intro hr
        rw [reachesRoot_of_reaches (inv.map_lt (by omega)) hiltn hr] at hirr
        exact Bool.true_eq_false.mp hirr
      have hr_j : Reaches h j := reaches_of_reachesRoot hjreach
      have hine_istar : i ≠ istar score n := by
        intro hc
        rw [hc, istar_reachesRoot inv hn] at hirr
        exact Bool.true_eq_false.mp hirr
      have inv' : HInv score n h' := by
        rw [hupd]
        refine ⟨?_, ?_, ?_, ?_⟩
        · simp only [if_neg (by omega : ¬ (0 : Nat) = i)]
          exact inv.zero
        · intro x h1 h2
          by_cases hx : x = i
          · simp [hx]; omega
          · simp only [if_neg hx]; exact inv.lt x h1 h2
        · intro x h1 h2
          by_cases hx : x = i
          · subst hx; simp only [if_pos rfl]; exact fun hc => hjnei hc
          · simp only [if_neg hx]; exact inv.ne x h1 h2
        · intro x h1 h2
          by_cases hx : x = i
          · subst hx
            simp only [if_pos rfl]
            constructor
            · intro hc; exact absurd hc hjne0
            · intro hc; exact absurd hc hine_istar
          · simp only [if_neg hx]; exact inv.root x h1 h2
      refine ⟨inv', ?_⟩
      unfold badList
      refine length_filter_lt _ ?_ i ?_ ?_ ?_
      · intro x hx hq
        simp only [Bool.and_eq_true, bne_iff_ne, ne_eq,
          Bool.not_eq_eq_eq_not, Bool.not_true] at hq ⊢
        refine ⟨hq.1, ?_⟩
        by_contra hreach
        have hreach' : reachesRoot h n x = true := by
          cases hr : reachesRoot h n x with
          | true => rfl
          | false => rw [hr] at hreach; exact absurd rfl hreach
        have : Reaches h' x := by
          rw [hupd]
          exact reaches_upd_of_reaches hnr_i (reaches_of_reachesRoot hreach')
        have hxlt : x < n := List.mem_range.mp hx
        have := reachesRoot_of_reaches (inv'.map_lt (by omega)) hxlt this
        rw [this] at hq
        exact Bool.true_eq_false.mp hq.2
      · exact List.mem_range.mpr hiltn
      · simp only [Bool.and_eq_true, bne_iff_ne, ne_eq,
          Bool.not_eq_eq_eq_not, Bool.not_true]
        exact ⟨hine, hirr⟩
      · have : Reaches h' i := by
          rw [hupd]
          exact reaches_upd_self hnr_i hr_j
        have := reachesRoot_of_reaches (inv'.map_lt (by omega)) hiltn this
        simp [this]

/-- The fuel-bounded repair loop terminates with the invariant intact
and every non-root token reaching the root, provided the fuel covers
the number of unreachable tokens. -/
theorem repairLoop_spec {score : Nat → Nat → Int} {n : Nat} (hn : 2 ≤ n) :
    ∀ (fuel : Nat) (h : Nat → Nat), HInv score n h →
      (badList n h).length ≤ fuel →
      HInv score n (repairLoop score n fuel h) ∧
        badList n (repairLoop score n fuel h) = [] := by
  intro fuel
  induction fuel with
  | zero =>
    intro h inv hlen
    have : badList n h = [] := List.length_eq_zero.mp (Nat.le_zero.mp hlen)
    exact ⟨inv, this⟩
  | succ fuel ih =>
    intro h inv hlen
    cases hstep : repairStep score n h with
    | none =>
      simp only [repairLoop, hstep]
      exact ⟨inv, repairStep_none_badList hn inv hstep⟩
    | some h' =>
      simp only [repairLoop, hstep]
      obtain ⟨inv', hdec⟩ := repairStep_some hn inv hstep
      exact ih h' inv' (by omega)

/-- The decoded head assignment satisfies the invariant and every
non-root token reaches the root. -/
theorem decodeHeads_spec (score : Nat → Nat → Int) {n : Nat} (hn : 2 ≤ n) :
    HInv score n (decodeHeads score n) ∧ badList n (decodeHeads score n) = [] := by
  apply repairLoop_spec hn n (initialHeads score n) (HInv_initial score hn)
  calc (badList n (initialHeads score n)).length
      ≤ (List.range n).length := List.length_filter_le _ _
    _ = n := List.length_range n

/-- Head lookup in a decoded head-index list (sentinel 0 out of
range). -/
def headOf (arcs : List Nat) (i : Nat) : Nat := arcs.getD i 0

/-- Well-formedness of a decoded dependency tree over positions
`0, …, n-1` with root `0`: every non-root token has exactly one head,
inside the sentence and distinct from itself; exactly one token has the
root as head; every non-root token is reachable from the root (its head
chain reaches position 0); and the head assignment restricted to
non-root tokens has no cycles. -/
def WellFormedTree (n : Nat) (arcs : List Nat) : Prop :=
  (∀ i, 1 ≤ i → i < n → headOf arcs i < n ∧ headOf arcs i ≠ i) ∧
  (∃! i, (1 ≤ i ∧ i < n) ∧ headOf arcs i = 0) ∧
  (∀ i, 1 ≤ i → i < n → ∃ m, (headOf arcs)^[m] i = 0) ∧
  (∀ i, 1 ≤ i → i < n → ∀ k, 0 < k → (headOf arcs)^[k] i ≠ i)

theorem headOf_map_range {h : Nat → Nat} {n i : Nat} (hi : i < n) :
    headOf ((List.range n).map h) i = h i := by
  unfold headOf
  rw [List.getD_eq_getElem?_getD, List.getElem?_map, List.getElem?_range hi]
  rfl

theorem headOf_map_range_iterate {h : Nat → Nat} {n : Nat}
    (hb : ∀ x, x < n → h x < n) {i : Nat} (hi : i < n) :
    ∀ m, (headOf ((List.range n).map h))^[m] i = h^[m] i := by
  intro m
  induction m generalizing i with
  | zero => simp
  | succ m ih =>
    rw [Function.iterate_succ_apply, Function.iterate_succ_apply,
      headOf_map_range hi]
    exact ih (hb i hi)

theorem not_mem_badList_reaches {n : Nat} {h : Nat → Nat} {i : Nat}
    (hnil : badList n h = []) (h1 : 1 ≤ i) (h2 : i < n) :
    reachesRoot h n i = true := by
  by_contra hr
  have : i ∈ badList n h := by
    refine mem_badList.mpr ⟨h2, by omega, ?_⟩
    cases hc : reachesRoot h n i with
    | true => rw [hc] at hr; exact absurd rfl hr
    | false => rfl
  rw [hnil] at this
  simp at this

/-- The decoded head list of one sentence is a well-formed dependency
tree. -/
theorem decodeHeads_wellformed (score : Nat → Nat → Int) {n : Nat} (hn : 2 ≤ n) :
    WellFormedTree n ((List.range n).map (decodeHeads score n)) := by
  obtain ⟨inv, hnil⟩ := decodeHeads_spec score hn
  set h := decodeHeads score n with hdef
  have hb : ∀ x, x < n → h x < n := inv.map_lt (by omega)
  have hist := istar_bounds score hn
  refine ⟨?_, ?_, ?_, ?_⟩
  · intro i h1 h2
    rw [headOf_map_range h2]
    exact ⟨inv.lt i h1 h2, inv.ne i h1 h2⟩
  · refine ⟨istar score n, ⟨⟨hist.1, hist.2⟩, ?_⟩, ?_⟩
    · rw [headOf_map_range hist.2]
      exact (inv.root _ hist.1 hist.2).mpr rfl
    · rintro x ⟨⟨hx1, hx2⟩, hx0⟩
      rw [headOf_map_range hx2] at hx0
      exact (inv.root x hx1 hx2).mp hx0
  · intro i h1 h2
    have := reaches_of_reachesRoot (not_mem_badList_reaches hnil h1 h2)
    obtain ⟨m, hm⟩ := this
    exact ⟨m, by rw [headOf_map_range_iterate hb h2]; exact hm⟩
  · intro i h1 h2 k hk
    rw [headOf_map_range_iterate hb h2]
    exact no_cycle_of_reaches inv.zero (by omega)
      (reaches_of_reachesRoot (not_mem_badList_reaches hnil h1 h2)) k hk

/-- Claim C2: tree validity of decoding.  For every batch of score
inputs, each per-sentence head sequence produced by `parse` (here the
`k`-th one, for any sentence of length at least 2) is a well-formed
dependency tree: the head assignment restricted to non-root tokens has
no cycles, every non-root token has exactly one head, exactly one token
has the root as head, and every token is reachable from the root. -/
theorem parse_output_tree_valid (batch : List ScoredSentence) (k : Nat)
    (hk : k < batch.length) (hn : 2 ≤ (batch.getD k default).n) :
    WellFormedTree (batch.getD k default).n ((parse batch).1.getD k []) := by
  have hmap : (parse batch).1.getD k [] =
      (List.range (batch.getD k default).n).map
        (decodeHeads (batch.getD k default).arcScore (batch.getD k default).n) := by
    show (batch.map (fun s => (parseOne s).1)).getD k [] = _
    rw [List.getD_eq_getElem?_getD, List.getElem?_map]
    rw [List.getElem?_eq_getElem hk]
    simp only [Option.map_some', Option.getD_some]
    rw [List.getD_eq_getElem?_getD, List.getElem?_eq_getElem hk]
    rfl
  rw [hmap]
  exact decodeHeads_wellformed _ hn

/-- Adversarial score matrix whose greedy decode would put tokens 2 and
3 in a cycle: used as the concrete input of the tree-validity witness. -/
def advSentence : ScoredSentence :=
  ⟨4,
   fun i j =>
     if i = 1 ∧ j = 0 then 5
     else if i = 2 ∧ j = 3 then 10
     else if i = 3 ∧ j = 2 then 10
     else 0,
   fun _ _ _ => 0, 2⟩

/-- Witness for claim C2 at a concrete adversarial input (scores
favoring a cycle between tokens 2 and 3). -/
theorem parse_output_tree_valid_w :
    (0 < [advSentence].length ∧ 2 ≤ ([advSentence].getD 0 default).n) ∧
      WellFormedTree ([advSentence].getD 0 default).n
        ((parse [advSentence]).1.getD 0 []) :=
  ⟨⟨by decide, by decide⟩,
   parse_output_tree_valid [advSentence] 0 (by decide) (by decide)⟩

/-! ### The test procedure of `parser.py` (lines 167-252)

The surrounding collaborators (data loader, vocabularies, the trained
model) are parameters: `punct` is the fixed punctuation table consulted
by `create_ignore_mask`, `getSentence` models `loader.get_sentence`,
`posLookup`/`labelLookup` model `pos_map.lookup`/`label_map.lookup`,
and each sentence carries the score matrices the model produced for
it.  Python floats are modelled by `ℚ` and Python float division by
`pyDiv`. -/

/-- Python's binary `/` on floats: raises `ZeroDivisionError` on a zero
denominator (it does not produce NaN). -/
def pyDiv (a b : ℚ) : Except String ℚ :=
  if b = 0 then Except.error "ZeroDivisionError: float division by zero"
  else Except.ok (a / b)

/-- Python's `zip` over four sequences: truncates to the shortest. -/
def zip4 {α β γ δ : Type} : List α → List β → List γ → List δ → List (α × β × γ × δ)
  | a :: as, b :: bs, c :: cs, d :: ds => (a, b, c, d) :: zip4 as bs cs ds
  | _, _, _, _ => []

/-- One printed line of decode mode (`parser.py` lines 247-248):
`"\t".join([word, pos_map.lookup(pos_id), str(arc), label_map.lookup(label_id)])`. -/
def tokenLine (posLookup labelLookup : Nat → String)
    (t : String × Nat × Nat × Nat) : String :=
  t.1 ++ "\t" ++ posLookup t.2.1 ++ "\t" ++ toString t.2.2.1 ++ "\t" ++
    labelLookup t.2.2.2

/-- The token lines printed for one sentence in decode mode
(`parser.py` lines 244-248): `zip(words[1:], pos_tokens[i][1:],
p_arcs[1:], p_labels[1:])`, one joined line per tuple. -/
def sentenceLines (posLookup labelLookup : Nat → String) (words : List String)
    (pos pArcs pLabels : List Nat) : List String :=
  (zip4 words.tail pos.tail pArcs.tail pLabels.tail).map
    (tokenLine posLookup labelLookup)

/-- The full decode-mode output for one sentence (`parser.py` lines
244-249): the token lines followed by the blank line of `print()`. -/
def sentenceOutput (posLookup labelLookup : Nat → String) (words : List String)
    (pos pArcs pLabels : List Nat) : List String :=
  sentenceLines posLookup labelLookup words pos pArcs pLabels ++ [""]

/-- The collaborator capabilities the test loop consumes. -/
structure Env where
  punct : Nat → Bool
  getSentence : List Nat → List String
  posLookup : Nat → String
  labelLookup : Nat → String

/-- One sentence of the test dataset as the loop of `parser.py` sees
it: its word ids and POS ids, the model's scores for it (consumed by
`parse`), and its gold arcs and labels (`batch[-1].T`). -/
structure TestSentence where
  words : List Nat
  pos : List Nat
  scored : ScoredSentence
  tArcs : List Nat
  tLabels : List Nat

/-- The predicted head sequence `p_arcs` for one sentence. -/
def predArcs (s : TestSentence) : List Nat := (parseOne s.scored).1

/-- The predicted label sequence `p_labels` for one sentence. -/
def predLabels (s : TestSentence) : List Nat := (parseOne s.scored).2

/-- The per-sentence evaluation of `parser.py` lines 239-241:
`mask = evaluator.create_ignore_mask(pos_tokens[i])` followed by
`evaluator.evaluate(p_arcs, p_labels, t_arcs, t_labels, mask)`. -/
def evalOf (env : Env) (s : TestSentence) : Nat × Nat × Nat :=
  evaluate (predArcs s) (predLabels s) s.tArcs s.tLabels
    (create_ignore_mask env.punct s.pos)

/-- The running state of the test loop: the aggregate
`UAS, LAS, count` (floats, updated at the single accumulation point of
line 250) and the text printed to standard output so far. -/
structure TestAcc where
  UAS : ℚ
  LAS : ℚ
  count : ℚ
  output : List String

/-- The body of the per-sentence loop of `parser.py` lines 237-250:
evaluate the sentence, print its decoded lines when `decode` is set,
and fold the three counts into the running aggregate. -/
def stepSentence (env : Env) (decode : Bool) (acc : TestAcc)
    (s : TestSentence) : TestAcc :=
  let e := evalOf env s
  let out :=
    if decode then
      acc.output ++
        sentenceOutput env.posLookup env.labelLookup (env.getSentence s.words)
          s.pos (predArcs s) (predLabels s)
    else acc.output
  ⟨acc.UAS + (e.1 : ℚ), acc.LAS + (e.2.1 : ℚ), acc.count + (e.2.2 : ℚ), out⟩

/-- The test loop of `parser.py` lines 230-250: starting from
`UAS, LAS, count = 0.0, 0.0, 0.0`, process the sentences of the
dataset in order. -/
def runTest (env : Env) (decode : Bool) (data : List TestSentence) : TestAcc :=
  data.foldl (stepSentence env decode) ⟨0, 0, 0, []⟩

/-- The final report of `parser.py` lines 251-252:
`UAS / count * 100` and `LAS / count * 100` (Python evaluates the
`UAS` ratio first). -/
def testReport (env : Env) (decode : Bool) (data : List TestSentence) :
    Except String (ℚ × ℚ) :=
  match pyDiv (runTest env decode data).UAS (runTest env decode data).count with
  | Except.error e => Except.error e
  | Except.ok u =>
    match pyDiv (runTest env decode data).LAS (runTest env decode data).count with
    | Except.error e => Except.error e
    | Except.ok l => Except.ok (u * 100, l * 100)

/-! ### Aggregation lemmas for the test loop -/

theorem foldl_step_agg (env : Env) (d : Bool) (data : List TestSentence) :
    ∀ acc : TestAcc,
      (data.foldl (stepSentence env d) acc).UAS =
        acc.UAS + ((data.map (fun s => ((evalOf env s).1 : ℚ))).sum) ∧
      (data.foldl (stepSentence env d) acc).LAS =
        acc.LAS + ((data.map (fun s => ((evalOf env s).2.1 : ℚ))).sum) ∧
      (data.foldl (stepSentence env d) acc).count =
        acc.count + ((data.map (fun s => ((evalOf env s).2.2 : ℚ))).sum) := by
  induction data with
  | nil => intro acc; simp
  | cons s rest ih =>
    intro acc
    obtain ⟨h1, h2, h3⟩ := ih (stepSentence env d acc s)
    refine ⟨?_, ?_, ?_⟩
    · rw [List.foldl_cons, h1]
      simp only [stepSentence, List.map_cons, List.sum_cons]
      ring
    · rw [List.foldl_cons, h2]
      simp only [stepSentence, List.map_cons, List.sum_cons]
      ring
    · rw [List.foldl_cons, h3]
      simp only [stepSentence, List.map_cons, List.sum_cons]
      ring

theorem runTest_agg (env : Env) (d : Bool) (data : List TestSentence) :
    (runTest env d data).UAS = ((data.map (fun s => ((evalOf env s).1 : ℚ))).sum) ∧
    (runTest env d data).LAS = ((data.map (fun s => ((evalOf env s).2.1 : ℚ))).sum) ∧
    (runTest env d data).count = ((data.map (fun s => ((evalOf env s).2.2 : ℚ))).sum) := by
  obtain ⟨h1, h2, h3⟩ := foldl_step_agg env d data ⟨0, 0, 0, []⟩
  exact ⟨by rw [runTest, h1]; ring, by rw [runTest, h2]; ring, by rw [runTest, h3]; ring⟩

theorem foldl_step_output_false (env : Env) (data : List TestSentence) :
    ∀ acc : TestAcc,
      (data.foldl (stepSentence env false) acc).output = acc.output := by
  induction data with
  | nil => intro acc; simp
  | cons s rest ih =>
    intro acc
    rw [List.foldl_cons, ih]
    simp [stepSentence]

/-- Claim C8: single accumulation point.  The running aggregate
`(UAS, LAS, count)` is the fold of the single update of line 250 over
the sentences in order; after processing any prefix of the dataset it
equals the componentwise sum of the `evaluate` results of the sentences
processed so far, each sentence contributing exactly once. -/
theorem aggregate_is_componentwise_sum (env : Env) (d : Bool)
    (data : List TestSentence) (k : Nat) :
    (runTest env d (data.take k)).UAS =
      (((data.take k).map (fun s => ((evalOf env s).1 : ℚ))).sum) ∧
    (runTest env d (data.take k)).LAS =
      (((data.take k).map (fun s => ((evalOf env s).2.1 : ℚ))).sum) ∧
    (runTest env d (data.take k)).count =
      (((data.take k).map (fun s => ((evalOf env s).2.2 : ℚ))).sum) :=
  runTest_agg env d (data.take k)

/-- Claim C9: the decode flag does not interfere with evaluation.  For
every environment and dataset, running the test loop with
`decode = true` and with `decode = false` produces an identical final
aggregate `(UAS, LAS, count)`; the flag only adds textual output (with
`decode = false` nothing is printed). -/
theorem decode_flag_noninterference (env : Env) (data : List TestSentence) :
    (runTest env true data).UAS = (runTest env false data).UAS ∧
    (runTest env true data).LAS = (runTest env false data).LAS ∧
    (runTest env true data).count = (runTest env false data).count ∧
    (runTest env false data).output = [] := by
  obtain ⟨t1, t2, t3⟩ := runTest_agg env true data
  obtain ⟨f1, f2, f3⟩ := runTest_agg env false data
  refine ⟨by rw [t1, f1], by rw [t2, f2], by rw [t3, f3], ?_⟩
  exact foldl_step_output_false env data ⟨0, 0, 0, []⟩

/-- Claim C4: the dataset-level scores reported by the test procedure
equal the per-sentence sums scaled to percentages: when the summed
`total_count` is nonzero, the report is
`(Σ uas / Σ total × 100, Σ las / Σ total × 100)`. -/
theorem report_is_summed_ratio (env : Env) (d : Bool)
    (data : List TestSentence)
    (h : ((data.map (fun s => ((evalOf env s).2.2 : ℚ))).sum) ≠ 0) :
    testReport env d data = Except.ok
      (((data.map (fun s => ((evalOf env s).1 : ℚ))).sum) /
         ((data.map (fun s => ((evalOf env s).2.2 : ℚ))).sum) * 100,
       ((data.map (fun s => ((evalOf env s).2.1 : ℚ))).sum) /
         ((data.map (fun s => ((evalOf env s).2.2 : ℚ))).sum) * 100) := by
  obtain ⟨h1, h2, h3⟩ := runTest_agg env d data
  unfold testReport
  rw [h1, h2, h3]
  simp [pyDiv, h]

/-- Claim C1 (as the code actually behaves): on a dataset whose
evaluable-token total is zero, the final report of `parser.py` line 252
divides by `count = 0.0`, which in Python raises `ZeroDivisionError` —
the procedure crashes instead of reporting the undefined result
distinctly. -/
theorem zero_count_report_raises (env : Env) (d : Bool)
    (data : List TestSentence) (h : (runTest env d data).count = 0) :
    testReport env d data =
      Except.error "ZeroDivisionError: float division by zero" := by
  unfold testReport
  rw [h]
  simp [pyDiv]

/-- A fixed concrete environment for witnesses. -/
def envW : Env := ⟨fun _ => true, fun _ => [], fun _ => "", fun _ => ""⟩

/-- A fully masked sentence (its only non-root token is
punctuation-tagged, and `envW.punct` marks everything): its `evaluate`
counts are all zero. -/
def maskedSentence : TestSentence :=
  ⟨[0, 1], [0, 7], ⟨2, fun _ _ => 0, fun _ _ _ => 0, 1⟩, [0, 0], [0, 0]⟩

theorem maskedSentence_count_zero :
    (runTest envW false [maskedSentence]).count = 0 := by
  obtain ⟨-, -, h3⟩ := runTest_agg envW false [maskedSentence]
  rw [h3]
  have hnat : (evalOf envW maskedSentence).2.2 = 0 := by decide
  simp [hnat]

/-- Witness for claim C1: on the dataset consisting of one fully masked
sentence the aggregate count is zero and the report raises
`ZeroDivisionError`. -/
theorem zero_count_report_raises_w :
    (runTest envW false [maskedSentence]).count = 0 ∧
      testReport envW false [maskedSentence] =
        Except.error "ZeroDivisionError: float division by zero" :=
  ⟨maskedSentence_count_zero,
   zero_count_report_raises envW false [maskedSentence] maskedSentence_count_zero⟩

/-- A sentence with one evaluable token whose predicted head and label
match the gold ones: used by the C4 witness. -/
def scoredSentenceW : TestSentence :=
  ⟨[0, 1], [0, 1], ⟨2, fun _ _ => 0, fun _ _ _ => 0, 1⟩, [0, 0], [0, 0]⟩

/-- An environment with no punctuation, so non-root tokens are
evaluable. -/
def envW2 : Env := ⟨fun _ => false, fun _ => [], fun _ => "", fun _ => ""⟩

theorem scoredSentenceW_count_ne :
    (([scoredSentenceW].map (fun s => ((evalOf envW2 s).2.2 : ℚ))).sum) ≠ 0 := by
  have hnat : (evalOf envW2 scoredSentenceW).2.2 = 1 := by decide
  simp [hnat]

/-- Witness for claim C4 at a concrete one-sentence dataset. -/
theorem report_is_summed_ratio_w :
    (([scoredSentenceW].map (fun s => ((evalOf envW2 s).2.2 : ℚ))).sum) ≠ 0 ∧
      testReport envW2 false [scoredSentenceW] = Except.ok
        ((([scoredSentenceW].map (fun s => ((evalOf envW2 s).1 : ℚ))).sum) /
           (([scoredSentenceW].map (fun s => ((evalOf envW2 s).2.2 : ℚ))).sum) * 100,
         (([scoredSentenceW].map (fun s => ((evalOf envW2 s).2.1 : ℚ))).sum) /
           (([scoredSentenceW].map (fun s => ((evalOf envW2 s).2.2 : ℚ))).sum) * 100) :=
  ⟨scoredSentenceW_count_ne,
   report_is_summed_ratio envW2 false [scoredSentenceW] scoredSentenceW_count_ne⟩

/-! ### Decode-mode output format -/

theorem zip4_length {α β γ δ : Type} :
    ∀ (as : List α) (bs : List β) (cs : List γ) (ds : List δ),
      (zip4 as bs cs ds).length =
        min (min (min as.length bs.length) cs.length) ds.length := by
  intro as
  induction as with
  | nil => intro bs cs ds; cases bs <;> cases cs <;> cases ds <;> simp [zip4]
  | cons a as ih =>
    intro bs cs ds
    cases bs with
    | nil => cases cs <;> cases ds <;> simp [zip4]
    | cons b bs =>
      cases cs with
      | nil => cases ds <;> simp [zip4]
      | cons c cs =>
        cases ds with
        | nil => simp [zip4]
        | cons d ds =>
          simp only [zip4, List.length_cons, ih]
          omega

theorem getD_tail {α : Type} (l : List α) (k : Nat) (d : α) :
    l.tail.getD k d = l.getD (k + 1) d := by
  cases l <;> simp [List.getD]

theorem zip4_getD {α β γ δ : Type} (da : α) (db : β) (dc : γ) (dd : δ) :
    ∀ (as : List α) (bs : List β) (cs : List γ) (ds : List δ) (k : Nat),
      k < (zip4 as bs cs ds).length →
      (zip4 as bs cs ds).getD k (da, db, dc, dd) =
        (as.getD k da, bs.getD k db, cs.getD k dc, ds.getD k dd) := by
  intro as
  induction as with
  | nil => intro bs cs ds k hk; cases bs <;> cases cs <;> cases ds <;> simp [zip4] at hk
  | cons a as ih =>
    intro bs cs ds k hk
    cases bs with
    | nil => simp [zip4] at hk
    | cons b bs =>
      cases cs with
      | nil => simp [zip4] at hk
      | cons c cs =>
        cases ds with
        | nil => simp [zip4] at hk
        | cons d ds =>
          cases k with
          | zero => simp [zip4, List.getD]
          | succ k =>
            simp only [zip4, List.length_cons] at hk
            have hk' : k < (zip4 as bs cs ds).length := by omega
            simp only [zip4, List.getD_cons_succ]
            exact ih bs cs ds k hk'

theorem getD_map_of_lt {α β : Type} (f : α → β) :
    ∀ (l : List α) (k : Nat), k < l.length → ∀ (d : β) (d' : α),
      (l.map f).getD k d = f (l.getD k d') := by
  intro l
  induction l with
  | nil => intro k hk; simp at hk
  | cons a t ih =>
    intro k hk d d'
    cases k with
    | zero => simp [List.getD]
    | succ k =>
      simp only [List.length_cons] at hk
      simp only [List.map_cons, List.getD_cons_succ]
      exact ih k (by omega) d d'

theorem getD_append_of_lt {α : Type} :
    ∀ (l1 l2 : List α) (k : Nat), k < l1.length → ∀ d : α,
      (l1 ++ l2).getD k d = l1.getD k d := by
  intro l1
  induction l1 with
  | nil => intro l2 k hk; simp at hk
  | cons a t ih =>
    intro l2 k hk d
    cases k with
    | zero => simp [List.getD]
    | succ k =>
      simp only [List.length_cons] at hk
      simp only [List.cons_append, List.getD_cons_succ]
      exact ih l2 k (by omega) d

theorem getD_append_at_length {α : Type} :
    ∀ (l1 l2 : List α) (d : α), (l1 ++ l2).getD l1.length d = l2.getD 0 d := by
  intro l1
  induction l1 with
  | nil => intro l2 d; simp
  | cons a t ih => intro l2 d; simpa using ih l2 d

theorem sentenceLines_getD (posLookup labelLookup : Nat → String)
    (words : List String) (pos pArcs pLabels : List Nat) (k : Nat)
    (hk : k < (sentenceLines posLookup labelLookup words pos pArcs pLabels).length) :
    (sentenceLines posLookup labelLookup words pos pArcs pLabels).getD k "" =
      words.getD (k + 1) "" ++ "\t" ++ posLookup (pos.getD (k + 1) 0) ++ "\t" ++
        toString (pArcs.getD (k + 1) 0) ++ "\t" ++
        labelLookup (pLabels.getD (k + 1) 0) := by
  unfold sentenceLines at hk ⊢
  rw [List.length_map] at hk
  rw [getD_map_of_lt _ _ _ hk _ ("", 0, 0, 0),
    zip4_getD _ _ _ _ _ _ _ _ _ hk]
  simp only [tokenLine, getD_tail]

/-- Claim C5: decode-mode per-sentence output format.  When the word,
POS, predicted-arc and predicted-label sequences of a sentence all have
the (root-included) length `L ≥ 1`, the text written for the sentence
is one line per non-root token — the tab-separated four fields
`word, pos_tag, head_index, label` in that order — followed by one
blank line: `L - 1` token lines and the blank line at position
`L - 1`. -/
theorem decode_sentence_format (posLookup labelLookup : Nat → String)
    (words : List String) (pos pArcs pLabels : List Nat) (L : Nat)
    (hw : words.length = L) (hp : pos.length = L) (ha : pArcs.length = L)
    (hl : pLabels.length = L) (hL : 1 ≤ L) :
    (sentenceOutput posLookup labelLookup words pos pArcs pLabels).length = L ∧
    (∀ k, k < L - 1 →
      (sentenceOutput posLookup labelLookup words pos pArcs pLabels).getD k "" =
        words.getD (k + 1) "" ++ "\t" ++ posLookup (pos.getD (k + 1) 0) ++ "\t" ++
          toString (pArcs.getD (k + 1) 0) ++ "\t" ++
          labelLookup (pLabels.getD (k + 1) 0)) ∧
    (sentenceOutput posLookup labelLookup words pos pArcs pLabels).getD (L - 1) "x"
      = "" := by
  have hlen : (sentenceLines posLookup labelLookup words pos pArcs pLabels).length
      = L - 1 := by
    unfold sentenceLines
    rw [List.length_map, zip4_length]
    simp only [List.length_tail, hw, hp, ha, hl]
    omega
  refine ⟨?_, ?_, ?_⟩
  · unfold sentenceOutput
    rw [List.length_append, hlen]
    simp
    omega
  · intro k hk
    unfold sentenceOutput
    rw [getD_append_of_lt _ _ _ (by omega)]
    exact sentenceLines_getD _ _ _ _ _ _ _ (by omega)
  · unfold sentenceOutput
    have : L - 1 = (sentenceLines posLookup labelLookup words pos pArcs pLabels).length := by
      omega
    rw [this, getD_append_at_length]
    rfl

/-- Claim C10: decode-mode output excludes the synthetic root at index
0.  For every sentence, the number of token lines printed is the length
of the shortest of the four sequences minus one, and line `k` is built
from position `k + 1` of the words, POS tags, predicted arcs and
predicted labels — no line is ever printed for position 0. -/
theorem decode_lines_exclude_root (posLookup labelLookup : Nat → String)
    (words : List String) (pos pArcs pLabels : List Nat) :
    (sentenceLines posLookup labelLookup words pos pArcs pLabels).length =
      min (min (min words.length pos.length) pArcs.length) pLabels.length - 1 ∧
    (∀ k, k < (sentenceLines posLookup labelLookup words pos pArcs pLabels).length →
      (sentenceLines posLookup labelLookup words pos pArcs pLabels).getD k "" =
        words.getD (k + 1) "" ++ "\t" ++ posLookup (pos.getD (k + 1) 0) ++ "\t" ++
          toString (pArcs.getD (k + 1) 0) ++ "\t" ++
          labelLookup (pLabels.getD (k + 1) 0)) := by
  constructor
  · unfold sentenceLines
    rw [List.length_map, zip4_length]
    simp only [List.length_tail]
    omega
  · intro k hk
    exact sentenceLines_getD _ _ _ _ _ _ _ hk

/-- Witness for claim C5 at a concrete sentence of length 3: the
hypotheses hold, the output has 3 lines, line 0 is built from token
position 1, and the final position holds the blank line. -/
theorem decode_sentence_format_w :
    ((["<ROOT>", "a", "b"] : List String).length = 3 ∧
      ([0, 1, 2] : List Nat).length = 3 ∧ ([0, 2, 0] : List Nat).length = 3 ∧
      ([0, 3, 4] : List Nat).length = 3 ∧ 1 ≤ 3) ∧
    (sentenceOutput (fun p => "P" ++ toString p) (fun l => "L" ++ toString l)
        ["<ROOT>", "a", "b"] [0, 1, 2] [0, 2, 0] [0, 3, 4]).length = 3 ∧
    (sentenceOutput (fun p => "P" ++ toString p) (fun l => "L" ++ toString l)
        ["<ROOT>", "a", "b"] [0, 1, 2] [0, 2, 0] [0, 3, 4]).getD 0 "" =
      (["<ROOT>", "a", "b"] : List String).getD 1 "" ++ "\t" ++
        ("P" ++ toString (([0, 1, 2] : List Nat).getD 1 0)) ++ "\t" ++
        toString (([0, 2, 0] : List Nat).getD 1 0) ++ "\t" ++
        ("L" ++ toString (([0, 3, 4] : List Nat).getD 1 0)) ∧
    (sentenceOutput (fun p => "P" ++ toString p) (fun l => "L" ++ toString l)
        ["<ROOT>", "a", "b"] [0, 1, 2] [0, 2, 0] [0, 3, 4]).getD (3 - 1) "x" = "" :=
  ⟨⟨by decide, by decide, by decide, by decide, by decide⟩,
   (decode_sentence_format (fun p => "P" ++ toString p)
     (fun l => "L" ++ toString l) ["<ROOT>", "a", "b"] [0, 1, 2] [0, 2, 0]
     [0, 3, 4] 3 (by decide) (by decide) (by decide) (by decide) (by decide)).1,
   (decode_sentence_format (fun p => "P" ++ toString p)
     (fun l => "L" ++ toString l) ["<ROOT>", "a", "b"] [0, 1, 2] [0, 2, 0]
     [0, 3, 4] 3 (by decide) (by decide) (by decide) (by decide)
     (by decide)).2.1 0 (by decide),
   (decode_sentence_format (fun p => "P" ++ toString p)
     (fun l => "L" ++ toString l) ["<ROOT>", "a", "b"] [0, 1, 2] [0, 2, 0]
     [0, 3, 4] 3 (by decide) (by decide) (by decide) (by decide)
     (by decide)).2.2⟩

/-- Witness for claim C10 at a concrete sentence with ragged sequence
lengths (3, 4, 3, 5): two token lines, drawn from positions 1 and 2. -/
theorem decode_lines_exclude_root_w :
    (sentenceLines (fun p => "P" ++ toString p) (fun l => "L" ++ toString l)
        ["<ROOT>", "a", "b"] [0, 1, 2, 9] [0, 2, 0] [0, 3, 4, 9, 9]).length =
      min (min (min (["<ROOT>", "a", "b"] : List String).length
        ([0, 1, 2, 9] : List Nat).length) ([0, 2, 0] : List Nat).length)
        ([0, 3, 4, 9, 9] : List Nat).length - 1 ∧
    (sentenceLines (fun p => "P" ++ toString p) (fun l => "L" ++ toString l)
        ["<ROOT>", "a", "b"] [0, 1, 2, 9] [0, 2, 0] [0, 3, 4, 9, 9]).getD 1 "" =
      (["<ROOT>", "a", "b"] : List String).getD 2 "" ++ "\t" ++
        ("P" ++ toString (([0, 1, 2, 9] : List Nat).getD 2 0)) ++ "\t" ++
        toString (([0, 2, 0] : List Nat).getD 2 0) ++ "\t" ++
        ("L" ++ toString (([0, 3, 4, 9, 9] : List Nat).getD 2 0)) :=
  ⟨(decode_lines_exclude_root (fun p => "P" ++ toString p)
      (fun l => "L" ++ toString l) ["<ROOT>", "a", "b"] [0, 1, 2, 9] [0, 2, 0]
      [0, 3, 4, 9, 9]).1,
   (decode_lines_exclude_root (fun p => "P" ++ toString p)
      (fun l => "L" ++ toString l) ["<ROOT>", "a", "b"] [0, 1, 2, 9] [0, 2, 0]
      [0, 3, 4, 9, 9]).2 1 (by decide)⟩

/-! ### Backend dispatch of the `train` and `test` entry points
(`parser.py` lines 25-70 and 173-200) -/

/-- The externally visible effects of the entry points that the claims
order against the backend check: loading the model context
(`teras.utils.load_context`, `test` line 173), loading a dataset
(`loader.load`, `train` lines 65/68, `test` line 200), and decoding
work (the test loop, lines 230-250). -/
inductive Effect where
  | loadContext (file : String)
  | loadDataset (file : String)
  | decodeWork
  deriving DecidableEq

/-- Control flow of the `train` entry point (`parser.py` lines 12-70,
truncated after dataset loading, which is all the claim orders
against): the backend dispatch of lines 25-56 happens first; an
unsupported backend raises
`ValueError("backend={} is not supported.".format(backend))` before any
dataset is loaded; otherwise the train file and the optional validation
file are loaded.  Returns the effects performed and the raised error,
if any. -/
def trainRun (backend train_file : String) (test_file : Option String) :
    List Effect × Option String :=
  if backend = "chainer" then
    (Effect.loadDataset train_file ::
      (match test_file with
       | some f => [Effect.loadDataset f]
       | none => []), none)
  else if backend = "pytorch" then
    (Effect.loadDataset train_file ::
      (match test_file with
       | some f => [Effect.loadDataset f]
       | none => []), none)
  else
    ([], some ("ValueError: backend=" ++ backend ++ " is not supported."))

/-- Control flow of the `test` entry point (`parser.py` lines 167-252,
reduced to the effects the claim orders against): the context is loaded
from the model file first (line 173, not a dataset); the backend
dispatch of lines 174-195 raises
`ValueError("backend={} is not supported.".format(context.backend))`
for an unsupported backend before the target dataset is loaded
(line 200) and before any decoding work begins (lines 230-250). -/
def testRun (backend model_file target_file : String) :
    List Effect × Option String :=
  if backend = "chainer" then
    ([Effect.loadContext model_file, Effect.loadDataset target_file,
      Effect.decodeWork], none)
  else if backend = "pytorch" then
    ([Effect.loadContext model_file, Effect.loadDataset target_file,
      Effect.decodeWork], none)
  else
    ([Effect.loadContext model_file],
     some ("ValueError: backend=" ++ backend ++ " is not supported."))

/-- Claim C3: unsupported-backend fail-fast.  For every backend string
other than `"chainer"` and `"pytorch"`, both `train` and `test` raise a
`ValueError` whose message names the backend, and they do so before any
dataset is loaded and before any decoding work begins: no
`loadDataset` or `decodeWork` effect is performed. -/
theorem unsupported_backend_fails_fast (backend : String)
    (hc : backend ≠ "chainer") (hp : backend ≠ "pytorch")
    (train_file model_file target_file : String) (test_file : Option String) :
    (trainRun backend train_file test_file).2 =
      some ("ValueError: backend=" ++ backend ++ " is not supported.") ∧
    (testRun backend model_file target_file).2 =
      some ("ValueError: backend=" ++ backend ++ " is not supported.") ∧
    (∀ f, Effect.loadDataset f ∉ (trainRun backend train_file test_file).1) ∧
    (∀ f, Effect.loadDataset f ∉ (testRun backend model_file target_file).1) ∧
    Effect.decodeWork ∉ (trainRun backend train_file test_file).1 ∧
    Effect.decodeWork ∉ (testRun backend model_file target_file).1 := by
  simp [trainRun, testRun, hc, hp]

/-- Witness for claim C3 at the concrete unsupported backend
`"mxnet"`. -/
theorem unsupported_backend_fails_fast_w :
    ("mxnet" ≠ "chainer" ∧ "mxnet" ≠ "pytorch") ∧
    ((trainRun "mxnet" "train.conll" (some "valid.conll")).2 =
      some ("ValueError: backend=" ++ "mxnet" ++ " is not supported.") ∧
    (testRun "mxnet" "model.npz" "target.conll").2 =
      some ("ValueError: backend=" ++ "mxnet" ++ " is not supported.") ∧
    (∀ f, Effect.loadDataset f ∉ (trainRun "mxnet" "train.conll" (some "valid.conll")).1) ∧
    (∀ f, Effect.loadDataset f ∉ (testRun "mxnet" "model.npz" "target.conll").1) ∧
    Effect.decodeWork ∉ (trainRun "mxnet" "train.conll" (some "valid.conll")).1 ∧
    Effect.decodeWork ∉ (testRun "mxnet" "model.npz" "target.conll").1) :=
  ⟨⟨by decide, by decide⟩,
   unsupported_backend_fails_fast "mxnet" (by decide) (by decide)
     "train.conll" "model.npz" "target.conll" (some "valid.conll")⟩

/-! ### The `parse` call interface (`parser.py` lines 233-236) -/

/-- One batch exactly as the test loop of `parser.py` destructures it
(lines 233-234): `pretrained_word_tokens, word_tokens, pos_tokens =
batch[:-1]` and `true_arcs, true_labels = batch[-1].T`. -/
structure RawBatch where
  pretrained_word_tokens : List (List Nat)
  word_tokens : List (List Nat)
  pos_tokens : List (List Nat)
  true_arcs : List (List Nat)
  true_labels : List (List Nat)

/-- The argument list of the `parse` call at `parser.py` lines
235-236: `parser.parse(pretrained_word_tokens, word_tokens,
pos_tokens)`. -/
def parseCallArgs (b : RawBatch) : List (List (List Nat)) :=
  [b.pretrained_word_tokens, b.word_tokens, b.pos_tokens]

/-- Follows the spec's words (§6, for refinement comparison):
"`parse(word_ids, pos_ids) -> (arc_sequences, label_sequences)` per
batch" — an argument list of exactly the two inputs. -/
def specParseCallArgs (b : RawBatch) : List (List (List Nat)) :=
  [b.word_tokens, b.pos_tokens]

/-- Counterexample to claim C6: at a concrete batch, the `parse` call
of `parser.py` lines 235-236 passes three argument sequences
(`pretrained_word_tokens`, `word_tokens`, `pos_tokens`), not the two
the spec names — the argument lists differ and the source one has
length 3. -/
theorem parse_not_two_inputs :
    parseCallArgs ⟨[[1]], [[2]], [[3]], [[0]], [[0]]⟩ ≠
      specParseCallArgs ⟨[[1]], [[2]], [[3]], [[0]], [[0]]⟩ ∧
    (parseCallArgs ⟨[[1]], [[2]], [[3]], [[0]], [[0]]⟩).length = 3 ∧
    (specParseCallArgs ⟨[[1]], [[2]], [[3]], [[0]], [[0]]⟩).length = 2 := by
  refine ⟨?_, rfl, rfl⟩
  decide

/-- Claim C6 as amended: the `parse` operation exposed to collaborators
takes exactly the three batch inputs `pretrained_word_tokens`,
`word_tokens`, `pos_tokens`, and returns the pair
`(arc_sequences, label_sequences)` — one head sequence and one label
sequence per sentence of the batch. -/
theorem parse_call_interface (b : RawBatch)
    (model : List (List Nat) → List (List Nat) → List (List Nat) →
      List ScoredSentence) :
    parseCallArgs b =
      [b.pretrained_word_tokens, b.word_tokens, b.pos_tokens] ∧
    parse (model b.pretrained_word_tokens b.word_tokens b.pos_tokens) =
      ((model b.pretrained_word_tokens b.word_tokens b.pos_tokens).map
         (fun s => (parseOne s).1),
       (model b.pretrained_word_tokens b.word_tokens b.pos_tokens).map
         (fun s => (parseOne s).2)) :=
  ⟨rfl, rfl⟩

end Biaffine
